import Mathlib

/-!
Verification of the quota-constrained greedy deck selector
(`build_deck_indices` in `mtg-tag-count/mtg_tagger_to_excel.py`) and the
rule-construction code in `main` of the same script.

Rows of the pandas DataFrame are embedded as association lists from
attribute name to Bool; `row.get(k)` / `row.get(k, False)` both treat a
missing key as falsy, which the embedding captures with a `false` default.
The mutable `tally` dict is embedded as an association list threaded
through an explicit recursion; the `break` statement is embedded by
returning the unconsumed suffix of the row list.
-/

/-- Association-list lookup, the embedding of Python dict lookup. -/
def lookupA {β : Type} : List (String × β) → String → Option β
  | [], _ => none
  | p :: l, k => if p.1 = k then some p.2 else lookupA l k

/-- A selection rule: `{"min": ..., "max": ...}` where `max = None` means
unbounded (embedded as `Option.none`). -/
structure Rule where
  min : Nat
  max : Option Nat
deriving Repr, DecidableEq

/-- The rule set `rules`: a Python dict from attribute name to rule,
embedded as an association list. -/
abbrev Rules := List (String × Rule)

/-- A DataFrame row: attribute name → Bool, embedded as an association list. -/
structure Row where
  attrs : List (String × Bool)
deriving Repr, DecidableEq

/-- `row.get(k)` / `row.get(k, False)`: a missing column is falsy. -/
def Row.get (r : Row) (k : String) : Bool :=
  (lookupA r.attrs k).getD false

/-- The mutable `tally` dict of `build_deck_indices`. -/
abbrev Tally := List (String × Nat)

/-- `tally[k]` (every key the selector accesses is present in the dict;
an absent key reads 0). -/
def Tally.get (t : Tally) (k : String) : Nat :=
  (lookupA t k).getD 0

/-- `tally[k] += 1`. -/
def Tally.incr (t : Tally) (k : String) : Tally :=
  t.map (fun p => if p.1 = k then (p.1, p.2 + 1) else p)

/-- `exclude_map`, a dict from attribute to the list of attributes vetoing it. -/
abbrev ExcludeMap := List (String × List String)

/-- `exclude_map.get(k, [])`. -/
def ExcludeMap.get (e : ExcludeMap) (k : String) : List String :=
  (lookupA e k).getD []

/-- `tally = {k: 0 for k in rules}`. -/
def initTally (rules : Rules) : Tally :=
  rules.map (fun p => (p.1, 0))

/-- `any(row.get(k, False) for k in rules)`: the irrelevance-skip test. -/
def isRelevant (rules : Rules) (row : Row) : Bool :=
  rules.any (fun p => row.get p.1)

/-- One attribute's clause of the maximum-violation test:
`rules[k].get("max") is not None and row.get(k) and tally[k] >= rules[k]["max"]`. -/
def maxVetoAttr (rule : Rule) (tally : Tally) (row : Row) (k : String) : Bool :=
  rule.max.isSome && row.get k && decide (tally.get k ≥ rule.max.getD 0)

/-- The maximum-violation skip test (`any(...)` over the rule attributes). -/
def maxVeto (rules : Rules) (tally : Tally) (row : Row) : Bool :=
  rules.any (fun p => maxVetoAttr p.2 tally row p.1)

/-- One attribute's condition for the primary contribution list:
`tally[k] < rules[k]["min"] and row.get(k) and not any(row.get(ex) for ex in exclude_map.get(k, []))`. -/
def primaryCond (excl : ExcludeMap) (tally : Tally) (row : Row) (k : String)
    (rule : Rule) : Bool :=
  decide (tally.get k < rule.min) && row.get k &&
    !((excl.get k).any (fun ex => row.get ex))

/-- The `primary` list comprehension. -/
def primary (rules : Rules) (excl : ExcludeMap) (tally : Tally) (row : Row) :
    List String :=
  (rules.filter (fun p => primaryCond excl tally row p.1 p.2)).map Prod.fst

/-- One attribute's condition for the extra contribution list (the exclusion
map is not consulted here):
`row.get(k) and rules[k].get("max") is not None and tally[k] < rules[k]["max"]`. -/
def extrasCond (tally : Tally) (row : Row) (k : String) (rule : Rule) : Bool :=
  row.get k && rule.max.isSome && decide (tally.get k < rule.max.getD 0)

/-- The `extras` list comprehension (`k not in primary and ...`), evaluated on
the tally already updated by the primary increments. -/
def extras (rules : Rules) (prim : List String) (tally : Tally) (row : Row) :
    List String :=
  (rules.filter (fun p => !(decide (p.1 ∈ prim)) && extrasCond tally row p.1 p.2)).map
    Prod.fst

/-- The tally after the primary-contribution increments of an accepted row. -/
def postPrimaryTally (rules : Rules) (excl : ExcludeMap) (tally : Tally)
    (row : Row) : Tally :=
  (primary rules excl tally row).foldl Tally.incr tally

/-- The tally after both the primary and the extra increments of an accepted
row. -/
def postExtrasTally (rules : Rules) (excl : ExcludeMap) (tally : Tally)
    (row : Row) : Tally :=
  (extras rules (primary rules excl tally row)
      (postPrimaryTally rules excl tally row) row).foldl Tally.incr
    (postPrimaryTally rules excl tally row)

/-- `all(tally[k] >= rules[k]["min"] for k in rules)`: the early-termination
test, evaluated only after an acceptance. -/
def allMet (rules : Rules) (tally : Tally) : Bool :=
  rules.all (fun p => decide (tally.get p.1 ≥ p.2.min))

/-- The scan loop of `build_deck_indices`. The triple returned is the
`selected` accumulator, the final tally, and the rows left unconsumed by the
`break` (empty when the loop ran off the end of the table). -/
def selectAux (rules : Rules) (excl : ExcludeMap) :
    List (Nat × Row) → List Nat → Tally → List Nat × Tally × List (Nat × Row)
  | [], sel, tally => (sel, tally, [])
  | (idx, row) :: rest, sel, tally =>
    if isRelevant rules row then
      if maxVeto rules tally row then selectAux rules excl rest sel tally
      else if (primary rules excl tally row).isEmpty then
        selectAux rules excl rest sel tally
      else if allMet rules (postExtrasTally rules excl tally row) then
        (sel ++ [idx], postExtrasTally rules excl tally row, rest)
      else
        selectAux rules excl rest (sel ++ [idx])
          (postExtrasTally rules excl tally row)
    else selectAux rules excl rest sel tally

/-- `build_deck_indices(df, rules, exclude_map)`: returns the selected row
indices only. -/
def build_deck_indices (df : List (Nat × Row)) (rules : Rules)
    (excl : ExcludeMap) : List Nat :=
  (selectAux rules excl df [] (initTally rules)).1

/-- The full run of the scan loop starting from the zero tally (selection,
final tally, unconsumed rows). -/
def selectRun (df : List (Nat × Row)) (rules : Rules) (excl : ExcludeMap) :
    List Nat × Tally × List (Nat × Row) :=
  selectAux rules excl df [] (initTally rules)

/-- A value appearing under `"tags"` or `"types"` in `counts.json`: either a
bare integer or an object with optional `"min"`/`"max"` fields. -/
inductive CountVal where
  | int (n : Nat)
  | obj (mn : Option Nat) (mx : Option Nat)
deriving Repr, DecidableEq

/-- One entry of the rule-construction loops in `main`:
`{"min": v.get("min", 0) if isinstance(v, dict) else v,
  "max": v.get("max") if isinstance(v, dict) else None}`. -/
def mkRule : CountVal → Rule
  | .int n => { min := n, max := none }
  | .obj mn mx => { min := mn.getD 0, max := mx }

/-- Python dict assignment `rules[k] = r`: overwrite in place if the key
exists, else append. -/
def dictInsert (acc : Rules) (k : String) (r : Rule) : Rules :=
  if acc.any (fun q => q.1 = k) then
    acc.map (fun q => if q.1 = k then (k, r) else q)
  else acc ++ [(k, r)]

/-- The rule-construction code of `main` (lines 193–203): both loops insert
into the `rules` dict unconditionally; no validation of any kind occurs. -/
def buildRules (tags types : List (String × CountVal)) : Rules :=
  types.foldl (fun acc p => dictInsert acc p.1 (mkRule p.2))
    (tags.foldl (fun acc p => dictInsert acc p.1 (mkRule p.2)) [])

/-- Sanity check of the embedding on the simplest satisfiable input: one
rule `tagA:min 1`, one qualifying row selected. -/
theorem sanity_single_row :
    build_deck_indices [(1, ⟨[("tagA", true)]⟩)] [("tagA", ⟨1, none⟩)] [] =
      [1] := by decide

/-- Sanity check of the embedding: with `tagA:min 1, max 1` and two
qualifying rows, only the first row is selected (the second is vetoed by the
maximum check). -/
theorem sanity_max_cap :
    build_deck_indices
      [(1, ⟨[("tagA", true)]⟩), (2, ⟨[("tagA", true)]⟩)]
      [("tagA", ⟨1, some 1⟩)] [] = [1] := by decide

/-! ### Basic lemmas about the dict embedding -/

theorem Tally.get_incr_ne (t : Tally) {j k : String} (h : j ≠ k) :
    (t.incr j).get k = t.get k := by
  induction t with
  | nil => rfl
  | cons p t ih =>
    simp only [Tally.incr, List.map_cons] at ih ⊢
    by_cases hj : p.1 = j
    · have hpk : p.1 ≠ k := fun hc => h (hj ▸ hc)
      simp only [Tally.get, lookupA, if_pos hj, if_neg hpk]
      exact ih
    · by_cases hk : p.1 = k
      · simp only [Tally.get, lookupA, if_neg hj, if_pos hk]
      · simp only [Tally.get, lookupA, if_neg hj, if_neg hk]
        exact ih

theorem Tally.get_incr_self_le (t : Tally) (k : String) :
    (t.incr k).get k ≤ t.get k + 1 := by
  induction t with
  | nil => simp [Tally.incr, Tally.get, lookupA]
  | cons p t ih =>
    simp only [Tally.incr, List.map_cons] at *
    by_cases hp : p.1 = k
    · simp [Tally.get, lookupA, hp]
    · simp [Tally.get, lookupA, hp] at *
      exact ih

theorem lookupA_isSome_iff {β : Type} (l : List (String × β)) (k : String) :
    (lookupA l k).isSome = true ↔ k ∈ l.map Prod.fst := by
  induction l with
  | nil => simp [lookupA]
  | cons p l ih =>
    by_cases hp : p.1 = k
    · simp [lookupA, hp]
    · simp [lookupA, hp, ih, Ne.symm hp]

theorem Tally.get_incr_self_of_isSome (t : Tally) (k : String)
    (h : (lookupA t k).isSome = true) :
    (t.incr k).get k = t.get k + 1 := by
  induction t with
  | nil => simp [lookupA] at h
  | cons p t ih =>
    simp only [Tally.incr, List.map_cons] at *
    by_cases hp : p.1 = k
    · simp [Tally.get, lookupA, hp]
    · simp [lookupA, hp] at h
      simp [Tally.get, lookupA, hp] at *
      exact ih h

theorem Tally.incr_map_fst (t : Tally) (k : String) :
    (t.incr k).map Prod.fst = t.map Prod.fst := by
  induction t with
  | nil => rfl
  | cons p t ih =>
    simp only [Tally.incr, List.map_cons] at *
    by_cases hp : p.1 = k <;> simp [hp, ih]

theorem Tally.get_foldl_incr_of_not_mem (l : List String) (t : Tally)
    (A : String) (h : A ∉ l) :
    (l.foldl Tally.incr t).get A = t.get A := by
  induction l generalizing t with
  | nil => rfl
  | cons b l ih =>
    simp only [List.foldl_cons]
    have hbA : b ≠ A := fun hb => h (by simp [hb])
    rw [ih _ fun hA => h (List.mem_cons_of_mem _ hA)]
    exact Tally.get_incr_ne t hbA

theorem Tally.get_foldl_incr_le (l : List String) (t : Tally) (A : String)
    (hnd : l.Nodup) :
    (l.foldl Tally.incr t).get A ≤ t.get A + 1 := by
  induction l generalizing t with
  | nil => simp
  | cons b l ih =>
    simp only [List.foldl_cons]
    by_cases hbA : b = A
    · subst hbA
      rw [Tally.get_foldl_incr_of_not_mem l _ b (List.nodup_cons.mp hnd).1]
      exact Tally.get_incr_self_le t b
    · calc (l.foldl Tally.incr (t.incr b)).get A
          ≤ (t.incr b).get A + 1 := ih _ (List.nodup_cons.mp hnd).2
        _ = t.get A + 1 := by rw [Tally.get_incr_ne t hbA]

theorem Tally.get_foldl_incr_of_mem (l : List String) (t : Tally) (A : String)
    (hnd : l.Nodup) (hA : A ∈ l) (hs : (lookupA t A).isSome = true) :
    (l.foldl Tally.incr t).get A = t.get A + 1 := by
  induction l generalizing t with
  | nil => simp at hA
  | cons b l ih =>
    simp only [List.foldl_cons]
    by_cases hbA : b = A
    · subst hbA
      rw [Tally.get_foldl_incr_of_not_mem l _ b (List.nodup_cons.mp hnd).1]
      exact Tally.get_incr_self_of_isSome t b hs
    · have hA' : A ∈ l := by
        rcases List.mem_cons.mp hA with h | h
        · exact absurd h.symm hbA
        · exact h
      have hs' : (lookupA (t.incr b) A).isSome = true := by
        rw [lookupA_isSome_iff] at hs ⊢
        rwa [Tally.incr_map_fst]
      rw [ih _ (List.nodup_cons.mp hnd).2 hA' hs', Tally.get_incr_ne t hbA]

theorem initTally_get (rules : Rules) (A : String) :
    (initTally rules).get A = 0 := by
  induction rules with
  | nil => rfl
  | cons p l ih =>
    by_cases hp : p.1 = A
    · simp [initTally, Tally.get, lookupA, hp]
    · simp only [initTally, List.map_cons] at ih ⊢
      simp only [Tally.get, lookupA, if_neg hp]
      exact ih

theorem keys_nodup_inj {rules : Rules} {A : String} {r r' : Rule}
    (hnd : (rules.map Prod.fst).Nodup) (h : (A, r) ∈ rules)
    (h' : (A, r') ∈ rules) : r = r' := by
  induction rules with
  | nil => simp at h
  | cons p l ih =>
    simp only [List.map_cons, List.nodup_cons] at hnd
    rcases List.mem_cons.mp h with he | ht
    · rcases List.mem_cons.mp h' with he' | ht'
      · exact congrArg Prod.snd (he.trans he'.symm)
      · have hA : A ∈ List.map Prod.fst l := by
          simpa using List.mem_map_of_mem Prod.fst ht'
        have hp1 : p.1 = A := congrArg Prod.fst he.symm
        exact absurd hA (hp1 ▸ hnd.1)
    · rcases List.mem_cons.mp h' with he' | ht'
      · have hA : A ∈ List.map Prod.fst l := by
          simpa using List.mem_map_of_mem Prod.fst ht
        have hp1 : p.1 = A := congrArg Prod.fst he'.symm
        exact absurd hA (hp1 ▸ hnd.1)
      · exact ih hnd.2 ht ht'

/-! ### Membership characterizations of the contribution lists -/

theorem mem_primary_iff (rules : Rules) (excl : ExcludeMap) (tally : Tally)
    (row : Row) (A : String) :
    A ∈ primary rules excl tally row ↔
      ∃ r, (A, r) ∈ rules ∧ primaryCond excl tally row A r = true := by
  simp only [primary, List.mem_map, List.mem_filter]
  constructor
  · rintro ⟨⟨B, r⟩, ⟨hmem, hcond⟩, rfl⟩
    exact ⟨r, hmem, hcond⟩
  · rintro ⟨r, hmem, hcond⟩
    exact ⟨(A, r), ⟨hmem, hcond⟩, rfl⟩

theorem mem_extras_iff (rules : Rules) (prim : List String) (tally : Tally)
    (row : Row) (A : String) :
    A ∈ extras rules prim tally row ↔
      ∃ r, (A, r) ∈ rules ∧ A ∉ prim ∧ extrasCond tally row A r = true := by
  simp only [extras, List.mem_map, List.mem_filter, Bool.and_eq_true,
    Bool.not_eq_true', decide_eq_false_iff_not]
  constructor
  · rintro ⟨⟨B, r⟩, ⟨hmem, hnp, hcond⟩, rfl⟩
    exact ⟨r, hmem, hnp, hcond⟩
  · rintro ⟨r, hmem, hnp, hcond⟩
    exact ⟨(A, r), ⟨hmem, hnp, hcond⟩, rfl⟩

theorem primary_nodup (rules : Rules) (excl : ExcludeMap) (tally : Tally)
    (row : Row) (hnd : (rules.map Prod.fst).Nodup) :
    (primary rules excl tally row).Nodup :=
  List.Sublist.nodup (List.Sublist.map Prod.fst (List.filter_sublist _)) hnd

theorem extras_nodup (rules : Rules) (prim : List String) (tally : Tally)
    (row : Row) (hnd : (rules.map Prod.fst).Nodup) :
    (extras rules prim tally row).Nodup :=
  List.Sublist.nodup (List.Sublist.map Prod.fst (List.filter_sublist _)) hnd

theorem maxVeto_false_attr {rules : Rules} {tally : Tally} {row : Row}
    {A : String} {r : Rule} (hv : maxVeto rules tally row = false)
    (hmem : (A, r) ∈ rules) : maxVetoAttr r tally row A = false := by
  by_contra hc
  have hx : maxVeto rules tally row = true := by
    simp only [maxVeto]
    exact List.any_eq_true.mpr ⟨(A, r), hmem, by simpa using hc⟩
  rw [hv] at hx
  exact Bool.false_ne_true hx

/-! ### The maximum is never exceeded (step and run invariants) -/

theorem step_tally_le_max {rules : Rules} (excl : ExcludeMap) {tally : Tally}
    {row : Row} {A : String} {r : Rule} {m : Nat}
    (hnd : (rules.map Prod.fst).Nodup) (hmem : (A, r) ∈ rules)
    (hmax : r.max = some m) (hveto : maxVeto rules tally row = false)
    (hle : tally.get A ≤ m) :
    (postExtrasTally rules excl tally row).get A ≤ m := by
  have hattr : maxVetoAttr r tally row A = false := maxVeto_false_attr hveto hmem
  have hprimnd : (primary rules excl tally row).Nodup :=
    primary_nodup rules excl tally row hnd
  by_cases hA : A ∈ primary rules excl tally row
  · obtain ⟨r', hmem', hcond⟩ := (mem_primary_iff rules excl tally row A).mp hA
    have hr : r' = r := keys_nodup_inj hnd hmem' hmem
    rw [hr] at hcond
    have hrow : row.get A = true := by
      simp only [primaryCond, Bool.and_eq_true] at hcond
      exact hcond.1.2
    have hlt : tally.get A < m := by
      simp only [maxVetoAttr, hmax, hrow, Option.isSome_some, Option.getD_some,
        Bool.true_and, Bool.and_eq_false_iff, decide_eq_false_iff_not] at hattr
      omega
    have h1 : (postPrimaryTally rules excl tally row).get A ≤ tally.get A + 1 := by
      rw [postPrimaryTally]
      exact Tally.get_foldl_incr_le _ _ _ hprimnd
    have hnotext : A ∉ extras rules (primary rules excl tally row)
        (postPrimaryTally rules excl tally row) row := by
      intro hc
      obtain ⟨r'', _, hnp, _⟩ :=
        (mem_extras_iff rules _ _ row A).mp hc
      exact hnp hA
    rw [postExtrasTally, Tally.get_foldl_incr_of_not_mem _ _ _ hnotext]
    omega
  · have h1 : (postPrimaryTally rules excl tally row).get A = tally.get A := by
      rw [postPrimaryTally]
      exact Tally.get_foldl_incr_of_not_mem _ _ _ hA
    rw [postExtrasTally]
    by_cases hE : A ∈ extras rules (primary rules excl tally row)
        (postPrimaryTally rules excl tally row) row
    · obtain ⟨r', hmem', hnp, hcond⟩ :=
        (mem_extras_iff rules _ _ row A).mp hE
      have hr : r' = r := keys_nodup_inj hnd hmem' hmem
      rw [hr] at hcond
      have hlt : (postPrimaryTally rules excl tally row).get A < m := by
        simp only [extrasCond, hmax, Option.isSome_some, Option.getD_some,
          Bool.and_eq_true, decide_eq_true_eq] at hcond
        exact hcond.2
      have h2 := Tally.get_foldl_incr_le
        (extras rules (primary rules excl tally row)
          (postPrimaryTally rules excl tally row) row)
        (postPrimaryTally rules excl tally row) A
        (extras_nodup rules _ _ row hnd)
      omega
    · rw [Tally.get_foldl_incr_of_not_mem _ _ _ hE]
      omega

theorem selectAux_tally_le_max {rules : Rules} (excl : ExcludeMap) {A : String}
    {r : Rule} {m : Nat} (hnd : (rules.map Prod.fst).Nodup)
    (hmem : (A, r) ∈ rules) (hmax : r.max = some m) :
    ∀ rows sel tally, tally.get A ≤ m →
      (selectAux rules excl rows sel tally).2.1.get A ≤ m := by
  intro rows
  induction rows with
  | nil =>
    intro sel tally h
    simpa [selectAux] using h
  | cons hd rest ih =>
    intro sel tally h
    obtain ⟨idx, row⟩ := hd
    simp only [selectAux]
    by_cases hrel : isRelevant rules row = true
    · rw [if_pos hrel]
      by_cases hveto : maxVeto rules tally row = true
      · rw [if_pos hveto]
        exact ih sel tally h
      · rw [if_neg hveto]
        have hveto' : maxVeto rules tally row = false :=
          Bool.not_eq_true _ ▸ hveto
        have hstep := step_tally_le_max excl hnd hmem hmax hveto' h
        by_cases hempty : (primary rules excl tally row).isEmpty = true
        · rw [if_pos hempty]
          exact ih sel tally h
        · rw [if_neg hempty]
          by_cases hmet : allMet rules (postExtrasTally rules excl tally row) = true
          · rw [if_pos hmet]
            exact hstep
          · rw [if_neg hmet]
            exact ih _ _ hstep
    · rw [if_neg hrel]
      exact ih sel tally h

/-- C3: for every input and every rule attribute `A` whose rule has a finite
maximum `m`, the tally for `A` never exceeds `m`: the final tally of the run
on any row list is at most `m`, and since `rows` here is universally
quantified this bounds the tally after every prefix of the scan, i.e. at
every point during it. -/
theorem C3_tally_le_max (rules : Rules) (excl : ExcludeMap) (A : String)
    (r : Rule) (m : Nat) (hnd : (rules.map Prod.fst).Nodup)
    (hmem : (A, r) ∈ rules) (hmax : r.max = some m) :
    ∀ rows : List (Nat × Row), (selectRun rows rules excl).2.1.get A ≤ m := by
  intro rows
  have h0 : (initTally rules).get A ≤ m := by
    rw [initTally_get]
    exact Nat.zero_le m
  exact selectAux_tally_le_max excl hnd hmem hmax rows [] (initTally rules) h0

/-- Witness for C3 at a concrete input. -/
theorem C3_tally_le_max_witness :
    (selectRun [(1, ⟨[("A", true)]⟩), (2, ⟨[("A", true)]⟩)]
        [("A", ⟨1, some 2⟩)] []).2.1.get "A" ≤ 2 :=
  C3_tally_le_max [("A", ⟨1, some 2⟩)] [] "A" ⟨1, some 2⟩ 2 (by decide)
    (by decide) rfl [(1, ⟨[("A", true)]⟩), (2, ⟨[("A", true)]⟩)]

/-! ### A generic tally invariant over the scan loop -/

theorem selectAux_tally_invariant {rules : Rules} {excl : ExcludeMap}
    (P : Tally → Prop)
    (hstep : ∀ tally row, maxVeto rules tally row = false → P tally →
      P (postExtrasTally rules excl tally row)) :
    ∀ rows sel tally, P tally → P (selectAux rules excl rows sel tally).2.1 := by
  intro rows
  induction rows with
  | nil =>
    intro sel tally h
    simpa [selectAux] using h
  | cons hd rest ih =>
    intro sel tally h
    obtain ⟨idx, row⟩ := hd
    simp only [selectAux]
    by_cases hrel : isRelevant rules row = true
    · rw [if_pos hrel]
      by_cases hveto : maxVeto rules tally row = true
      · rw [if_pos hveto]
        exact ih sel tally h
      · rw [if_neg hveto]
        have hstep' := hstep tally row (Bool.not_eq_true _ ▸ hveto) h
        by_cases hempty : (primary rules excl tally row).isEmpty = true
        · rw [if_pos hempty]
          exact ih sel tally h
        · rw [if_neg hempty]
          by_cases hmet : allMet rules (postExtrasTally rules excl tally row) = true
          · rw [if_pos hmet]
            exact hstep'
          · rw [if_neg hmet]
            exact ih _ _ hstep'
    · rw [if_neg hrel]
      exact ih sel tally h

/-! ### Attributes with no maximum never accumulate beyond their minimum -/

theorem step_tally_le_min_of_no_max {rules : Rules} (excl : ExcludeMap)
    {tally : Tally} {row : Row} {A : String} {r : Rule}
    (hnd : (rules.map Prod.fst).Nodup) (hmem : (A, r) ∈ rules)
    (hmax : r.max = none) (hle : tally.get A ≤ r.min) :
    (postExtrasTally rules excl tally row).get A ≤ r.min := by
  have hnotext : A ∉ extras rules (primary rules excl tally row)
      (postPrimaryTally rules excl tally row) row := by
    intro hc
    obtain ⟨r', hmem', _, hcond⟩ := (mem_extras_iff rules _ _ row A).mp hc
    have hr : r' = r := keys_nodup_inj hnd hmem' hmem
    rw [hr] at hcond
    simp [extrasCond, hmax] at hcond
  rw [postExtrasTally, Tally.get_foldl_incr_of_not_mem _ _ _ hnotext]
  by_cases hA : A ∈ primary rules excl tally row
  · obtain ⟨r', hmem', hcond⟩ := (mem_primary_iff rules excl tally row A).mp hA
    have hr : r' = r := keys_nodup_inj hnd hmem' hmem
    rw [hr] at hcond
    have hlt : tally.get A < r.min := by
      simp only [primaryCond, Bool.and_eq_true, decide_eq_true_eq] at hcond
      exact hcond.1.1
    have h1 : (postPrimaryTally rules excl tally row).get A ≤ tally.get A + 1 := by
      rw [postPrimaryTally]
      exact Tally.get_foldl_incr_le _ _ _ (primary_nodup rules excl tally row hnd)
    omega
  · rw [postPrimaryTally, Tally.get_foldl_incr_of_not_mem _ _ _ hA]
    exact hle

/-- C9: for every rule attribute `A` whose rule has no maximum, the tally for
`A` never exceeds `A`'s minimum: primary contributions require the tally to be
below the minimum and extra contributions require a finite maximum. `rows` is
universally quantified, so this bounds the tally after every prefix of the
scan, i.e. throughout the scan, including the final tally. -/
theorem C9_no_max_tally_le_min (rules : Rules) (excl : ExcludeMap) (A : String)
    (r : Rule) (hnd : (rules.map Prod.fst).Nodup) (hmem : (A, r) ∈ rules)
    (hmax : r.max = none) :
    ∀ rows : List (Nat × Row), (selectRun rows rules excl).2.1.get A ≤ r.min := by
  intro rows
  have h0 : (initTally rules).get A ≤ r.min := by
    rw [initTally_get]
    exact Nat.zero_le _
  exact selectAux_tally_invariant (fun t => t.get A ≤ r.min)
    (fun tally row _ h => step_tally_le_min_of_no_max excl hnd hmem hmax h)
    rows [] (initTally rules) h0

/-- Witness for C9 at a concrete input: three rows all carrying `"A"`, rule
`min 2`, no max; the final tally stays at 2. -/
theorem C9_no_max_tally_le_min_witness :
    (selectRun
        [(1, ⟨[("A", true)]⟩), (2, ⟨[("A", true)]⟩), (3, ⟨[("A", true)]⟩)]
        [("A", ⟨2, none⟩)] []).2.1.get "A" ≤ 2 :=
  C9_no_max_tally_le_min [("A", ⟨2, none⟩)] [] "A" ⟨2, none⟩ (by decide)
    (by decide) rfl
    [(1, ⟨[("A", true)]⟩), (2, ⟨[("A", true)]⟩), (3, ⟨[("A", true)]⟩)]

/-! ### Early termination -/

theorem selectAux_step_skip (rules : Rules) (excl : ExcludeMap) (idx : Nat)
    (row : Row) (rest : List (Nat × Row)) (sel : List Nat) (tally : Tally)
    (hskip : isRelevant rules row = false ∨ maxVeto rules tally row = true ∨
      (primary rules excl tally row).isEmpty = true) :
    selectAux rules excl ((idx, row) :: rest) sel tally =
      selectAux rules excl rest sel tally := by
  simp only [selectAux]
  rcases hskip with h | h | h
  · rw [if_neg (by simp [h])]
  · by_cases hrel : isRelevant rules row = true
    · rw [if_pos hrel, if_pos h]
    · rw [if_neg hrel]
  · by_cases hrel : isRelevant rules row = true
    · rw [if_pos hrel]
      by_cases hveto : maxVeto rules tally row = true
      · rw [if_pos hveto]
      · rw [if_neg hveto, if_pos h]
    · rw [if_neg hrel]

theorem selectAux_step_accept (rules : Rules) (excl : ExcludeMap) (idx : Nat)
    (row : Row) (rest : List (Nat × Row)) (sel : List Nat) (tally : Tally)
    (hrel : isRelevant rules row = true) (hveto : maxVeto rules tally row = false)
    (hempty : (primary rules excl tally row).isEmpty = false) :
    selectAux rules excl ((idx, row) :: rest) sel tally =
      if allMet rules (postExtrasTally rules excl tally row) = true then
        (sel ++ [idx], postExtrasTally rules excl tally row, rest)
      else
        selectAux rules excl rest (sel ++ [idx])
          (postExtrasTally rules excl tally row) := by
  simp only [selectAux]
  rw [if_pos hrel, if_neg (by simp [hveto]), if_neg (by simp [hempty])]

theorem selectAux_append_of_break :
    ∀ (rules : Rules) (excl : ExcludeMap) (rows extra : List (Nat × Row))
      (sel : List Nat) (tally : Tally),
      (selectAux rules excl rows sel tally).2.2 ≠ [] →
      selectAux rules excl (rows ++ extra) sel tally =
        ((selectAux rules excl rows sel tally).1,
         (selectAux rules excl rows sel tally).2.1,
         (selectAux rules excl rows sel tally).2.2 ++ extra) := by
  intro rules excl rows
  induction rows with
  | nil =>
    intro extra sel tally h
    simp [selectAux] at h
  | cons hd rest ih =>
    intro extra sel tally h
    obtain ⟨idx, row⟩ := hd
    by_cases hrel : isRelevant rules row = true
    · by_cases hveto : maxVeto rules tally row = true
      · have hR := selectAux_step_skip rules excl idx row rest sel tally
          (Or.inr (Or.inl hveto))
        have hL := selectAux_step_skip rules excl idx row (rest ++ extra) sel
          tally (Or.inr (Or.inl hveto))
        rw [hR] at h ⊢
        rw [List.cons_append, hL]
        exact ih extra sel tally h
      · have hveto' : maxVeto rules tally row = false :=
          Bool.not_eq_true _ ▸ hveto
        by_cases hempty : (primary rules excl tally row).isEmpty = true
        · have hR := selectAux_step_skip rules excl idx row rest sel tally
            (Or.inr (Or.inr hempty))
          have hL := selectAux_step_skip rules excl idx row (rest ++ extra) sel
            tally (Or.inr (Or.inr hempty))
          rw [hR] at h ⊢
          rw [List.cons_append, hL]
          exact ih extra sel tally h
        · have hempty' : (primary rules excl tally row).isEmpty = false :=
            Bool.not_eq_true _ ▸ hempty
          have hR := selectAux_step_accept rules excl idx row rest sel tally
            hrel hveto' hempty'
          have hL := selectAux_step_accept rules excl idx row (rest ++ extra)
            sel tally hrel hveto' hempty'
          by_cases hmet :
              allMet rules (postExtrasTally rules excl tally row) = true
          · rw [if_pos hmet] at hR hL
            rw [hR] at h ⊢
            rw [List.cons_append, hL]
          · rw [if_neg hmet] at hR hL
            rw [hR] at h ⊢
            rw [List.cons_append, hL]
            exact ih extra _ _ h
    · have hrel' : isRelevant rules row = false := Bool.not_eq_true _ ▸ hrel
      have hR := selectAux_step_skip rules excl idx row rest sel tally
        (Or.inl hrel')
      have hL := selectAux_step_skip rules excl idx row (rest ++ extra) sel
        tally (Or.inl hrel')
      rw [hR] at h ⊢
      rw [List.cons_append, hL]
      exact ih extra sel tally h

/-- C4: after an acceptance that brings every rule attribute's tally to at
least its minimum, the scan stops immediately: the accepting step returns
with the remaining rows unconsumed (first conjunct), and a run that broke
early is unchanged by any rows appended after the stopping point (second
conjunct). Concretely, with rules `A:min 1`, `B:min 1`, row 1 having only
`A` and row 2 having only `B`, both rows are selected in input order with
final tally `{A:1, B:1}` (third conjunct), and a third row appended after
row 2 is never evaluated (fourth conjunct). -/
theorem C4_early_termination :
    (∀ (rules : Rules) (excl : ExcludeMap) (idx : Nat) (row : Row)
        (rest : List (Nat × Row)) (sel : List Nat) (tally : Tally),
        isRelevant rules row = true → maxVeto rules tally row = false →
        (primary rules excl tally row).isEmpty = false →
        allMet rules (postExtrasTally rules excl tally row) = true →
        selectAux rules excl ((idx, row) :: rest) sel tally =
          (sel ++ [idx], postExtrasTally rules excl tally row, rest)) ∧
    (∀ (rules : Rules) (excl : ExcludeMap) (rows extra : List (Nat × Row))
        (sel : List Nat) (tally : Tally),
        (selectAux rules excl rows sel tally).2.2 ≠ [] →
        selectAux rules excl (rows ++ extra) sel tally =
          ((selectAux rules excl rows sel tally).1,
           (selectAux rules excl rows sel tally).2.1,
           (selectAux rules excl rows sel tally).2.2 ++ extra)) ∧
    selectRun [(1, ⟨[("A", true)]⟩), (2, ⟨[("B", true)]⟩)]
        [("A", ⟨1, none⟩), ("B", ⟨1, none⟩)] [] =
      ([1, 2], [("A", 1), ("B", 1)], []) ∧
    selectRun
        [(1, ⟨[("A", true)]⟩), (2, ⟨[("B", true)]⟩), (3, ⟨[("A", true)]⟩)]
        [("A", ⟨1, none⟩), ("B", ⟨1, none⟩)] [] =
      ([1, 2], [("A", 1), ("B", 1)], [(3, ⟨[("A", true)]⟩)]) := by
  refine ⟨?_, selectAux_append_of_break, by decide, by decide⟩
  intro rules excl idx row rest sel tally hrel hveto hempty hmet
  rw [selectAux_step_accept rules excl idx row rest sel tally hrel hveto hempty,
    if_pos hmet]

/-- Witness for C4 at a concrete input: one rule `A:min 1`, first row accepted
and the minimum met, so the second row is returned unconsumed. -/
theorem C4_early_termination_witness :
    selectAux [("A", ⟨1, none⟩)] []
        [(1, Row.mk [("A", true)]), (2, Row.mk [("A", true)])] []
        (initTally [("A", ⟨1, none⟩)]) =
      ([1],
       postExtrasTally [("A", ⟨1, none⟩)] [] (initTally [("A", ⟨1, none⟩)])
         (Row.mk [("A", true)]),
       [(2, Row.mk [("A", true)])]) :=
  C4_early_termination.1 [("A", ⟨1, none⟩)] [] 1 (Row.mk [("A", true)])
    [(2, Row.mk [("A", true)])] [] (initTally [("A", ⟨1, none⟩)])
    (by decide) (by decide) (by decide) (by decide)

/-! ### Totality and unsatisfiable minimums -/

theorem selectAux_remainder_allMet {rules : Rules} {excl : ExcludeMap} :
    ∀ (rows : List (Nat × Row)) (sel : List Nat) (tally : Tally),
      (selectAux rules excl rows sel tally).2.2 ≠ [] →
      allMet rules (selectAux rules excl rows sel tally).2.1 = true := by
  intro rows
  induction rows with
  | nil =>
    intro sel tally h
    simp [selectAux] at h
  | cons hd rest ih =>
    intro sel tally h
    obtain ⟨idx, row⟩ := hd
    simp only [selectAux] at h ⊢
    by_cases hrel : isRelevant rules row = true
    · rw [if_pos hrel] at h ⊢
      by_cases hveto : maxVeto rules tally row = true
      · rw [if_pos hveto] at h ⊢
        exact ih sel tally h
      · rw [if_neg hveto] at h ⊢
        by_cases hempty : (primary rules excl tally row).isEmpty = true
        · rw [if_pos hempty] at h ⊢
          exact ih sel tally h
        · rw [if_neg hempty] at h ⊢
          by_cases hmet :
              allMet rules (postExtrasTally rules excl tally row) = true
          · rw [if_pos hmet] at h ⊢
            exact hmet
          · rw [if_neg hmet] at h ⊢
            exact ih _ _ h
    · rw [if_neg hrel] at h ⊢
      exact ih sel tally h

/-- C8: the selector is total (it is a plain function in this embedding and
returns on every input); when some minimum is left unmet, the scan consumed
every row (first conjunct: an unmet final tally implies an empty remainder).
Concretely, with `A:min 5` and only rows 1 and 3 qualifying, all rows are
scanned, the qualifying rows are selected, and the final tally `{A:2}` stays
below the minimum (second and third conjuncts). -/
theorem C8_unsatisfiable_min_scans_all :
    (∀ (rules : Rules) (excl : ExcludeMap) (rows : List (Nat × Row)),
        allMet rules (selectRun rows rules excl).2.1 = false →
        (selectRun rows rules excl).2.2 = []) ∧
    selectRun [(1, ⟨[("A", true)]⟩), (2, ⟨[]⟩), (3, ⟨[("A", true)]⟩)]
        [("A", ⟨5, none⟩)] [] =
      ([1, 3], [("A", 2)], []) ∧
    allMet [("A", ⟨5, none⟩)] [("A", 2)] = false := by
  refine ⟨?_, by decide, by decide⟩
  intro rules excl rows h
  by_contra hne
  have hmet := selectAux_remainder_allMet rows [] (initTally rules) hne
  simp only [selectRun] at h
  rw [h] at hmet
  exact Bool.false_ne_true hmet

/-- Witness for C8 at a concrete input: a single qualifying row cannot reach
`min 5`, so the remainder is empty. -/
theorem C8_unsatisfiable_min_scans_all_witness :
    (selectRun [(1, Row.mk [("A", true)])] [("A", ⟨5, none⟩)] []).2.2 = [] :=
  C8_unsatisfiable_min_scans_all.1 [("A", ⟨5, none⟩)] []
    [(1, Row.mk [("A", true)])] (by decide)

/-! ### All-zero minimums select nothing -/

theorem primary_eq_nil_of_min_zero {rules : Rules} {excl : ExcludeMap}
    {tally : Tally} {row : Row} (hmin : ∀ p ∈ rules, p.2.min = 0) :
    primary rules excl tally row = [] := by
  have hf : rules.filter (fun p => primaryCond excl tally row p.1 p.2) = [] := by
    refine List.filter_eq_nil_iff.mpr (fun p hp => ?_)
    simp [primaryCond, hmin p hp]
  rw [primary, hf]
  rfl

theorem selectAux_all_skip_of_min_zero {rules : Rules} {excl : ExcludeMap}
    (hmin : ∀ p ∈ rules, p.2.min = 0) :
    ∀ (rows : List (Nat × Row)) (sel : List Nat) (tally : Tally),
      selectAux rules excl rows sel tally = (sel, tally, []) := by
  intro rows
  induction rows with
  | nil =>
    intro sel tally
    rfl
  | cons hd rest ih =>
    intro sel tally
    obtain ⟨idx, row⟩ := hd
    simp only [selectAux]
    by_cases hrel : isRelevant rules row = true
    · rw [if_pos hrel]
      by_cases hveto : maxVeto rules tally row = true
      · rw [if_pos hveto]
        exact ih sel tally
      · rw [if_neg hveto]
        have hempty : (primary rules excl tally row).isEmpty = true := by
          rw [primary_eq_nil_of_min_zero hmin]
          rfl
        rw [if_pos hempty]
        exact ih sel tally
    · rw [if_neg hrel]
      exact ih sel tally

/-- C7: for every rule set whose minimums are all zero, the selection is
empty (no row ever has a nonempty primary contribution set); with the empty
rule set, the whole result is the empty selection, the empty tally and an
empty remainder. -/
theorem C7_min_zero_empty_selection :
    (∀ (rules : Rules) (excl : ExcludeMap) (rows : List (Nat × Row)),
        (∀ p ∈ rules, p.2.min = 0) → build_deck_indices rows rules excl = []) ∧
    (∀ (excl : ExcludeMap) (rows : List (Nat × Row)),
        selectRun rows [] excl = ([], [], [])) := by
  constructor
  · intro rules excl rows hmin
    rw [build_deck_indices, selectAux_all_skip_of_min_zero hmin]
  · intro excl rows
    rw [selectRun, selectAux_all_skip_of_min_zero (by simp)]
    rfl

/-- Witness for C7 at a concrete input: a `min 0, max 3` rule selects nothing
even from a row carrying the attribute. -/
theorem C7_min_zero_empty_selection_witness :
    build_deck_indices [(1, Row.mk [("A", true)])] [("A", ⟨0, some 3⟩)] [] =
      [] :=
  C7_min_zero_empty_selection.1 [("A", ⟨0, some 3⟩)] []
    [(1, Row.mk [("A", true)])] (by decide)

/-! ### The primary contribution set -/

/-- C5: an attribute is in a row's primary contribution set exactly when the
row has it true, its tally is still below its minimum, and no attribute in
its exclusion list is true on the row; concretely, with exclusion
`tutor → [tutor-land]` and rule `tutor:min 1`, a row with both `tutor` and
`tutor-land` true is not selected and the final tally is `{tutor: 0}`. -/
theorem C5_primary_characterization :
    (∀ (rules : Rules) (excl : ExcludeMap) (tally : Tally) (row : Row)
        (A : String),
        A ∈ primary rules excl tally row ↔
          ∃ r, (A, r) ∈ rules ∧ row.get A = true ∧ tally.get A < r.min ∧
            ∀ ex ∈ ExcludeMap.get excl A, row.get ex = false) ∧
    selectRun [(1, ⟨[("tutor", true), ("tutor-land", true)]⟩)]
        [("tutor", ⟨1, none⟩)] [("tutor", ["tutor-land"])] =
      ([], [("tutor", 0)], []) := by
  refine ⟨?_, by decide⟩
  intro rules excl tally row A
  rw [mem_primary_iff]
  constructor
  · rintro ⟨r, hmem, hcond⟩
    simp only [primaryCond, Bool.and_eq_true, decide_eq_true_eq,
      Bool.not_eq_true', List.any_eq_false] at hcond
    exact ⟨r, hmem, hcond.1.2, hcond.1.1,
      fun ex hex => Bool.not_eq_true _ ▸ hcond.2 ex hex⟩
  · rintro ⟨r, hmem, hrow, hlt, hexcl⟩
    refine ⟨r, hmem, ?_⟩
    simp only [primaryCond, Bool.and_eq_true, decide_eq_true_eq,
      Bool.not_eq_true', List.any_eq_false]
    exact ⟨⟨hlt, hrow⟩,
      fun ex hex => (Bool.not_eq_true _).symm ▸ hexcl ex hex⟩

/-- Witness for C5 at a concrete input. -/
theorem C5_primary_characterization_witness :
    "tutor" ∈ primary [("tutor", ⟨1, none⟩)] [] [("tutor", 0)]
      (Row.mk [("tutor", true)]) :=
  (C5_primary_characterization.1 [("tutor", ⟨1, none⟩)] [] [("tutor", 0)]
      (Row.mk [("tutor", true)]) "tutor").mpr
    ⟨⟨1, none⟩, by decide, by decide, by decide, by decide⟩

/-! ### The extra contribution set -/

theorem foldl_incr_map_fst (l : List String) (t : Tally) :
    (l.foldl Tally.incr t).map Prod.fst = t.map Prod.fst := by
  induction l generalizing t with
  | nil => rfl
  | cons b l ih =>
    simp only [List.foldl_cons]
    rw [ih, Tally.incr_map_fst]

/-- C6: for an accepted row and a rule attribute `A` outside the primary set,
the tally for `A` is incremented by exactly 1 when the row has `A` true, `A`'s
rule has a finite maximum and `A`'s current tally is below it, and is left
unchanged otherwise; the exclusion map plays no part (the `extras` definition
never reads it), as the concrete second conjunct shows: `B` receives an extra
contribution although its excluded attribute `C` is true on the row. -/
theorem C6_extra_contributions :
    (∀ (rules : Rules) (excl : ExcludeMap) (tally : Tally) (row : Row)
        (A : String) (r : Rule),
        (rules.map Prod.fst).Nodup → (A, r) ∈ rules →
        A ∉ primary rules excl tally row → (lookupA tally A).isSome = true →
        ((postExtrasTally rules excl tally row).get A = tally.get A + 1 ↔
          row.get A = true ∧ r.max.isSome = true ∧
            tally.get A < r.max.getD 0) ∧
        (¬(row.get A = true ∧ r.max.isSome = true ∧
            tally.get A < r.max.getD 0) →
          (postExtrasTally rules excl tally row).get A = tally.get A)) ∧
    selectRun [(1, ⟨[("A", true), ("B", true), ("C", true)]⟩)]
        [("A", ⟨1, none⟩), ("B", ⟨0, some 2⟩)] [("B", ["C"])] =
      ([1], [("A", 1), ("B", 1)], []) := by
  refine ⟨?_, by decide⟩
  intro rules excl tally row A r hnd hmem hnp hsome
  have ht1 : (postPrimaryTally rules excl tally row).get A = tally.get A := by
    rw [postPrimaryTally]
    exact Tally.get_foldl_incr_of_not_mem _ _ _ hnp
  have hsome1 :
      (lookupA (postPrimaryTally rules excl tally row) A).isSome = true := by
    rw [lookupA_isSome_iff] at hsome ⊢
    rw [postPrimaryTally, foldl_incr_map_fst]
    exact hsome
  have hnotext : ¬(row.get A = true ∧ r.max.isSome = true ∧
      tally.get A < r.max.getD 0) →
      A ∉ extras rules (primary rules excl tally row)
        (postPrimaryTally rules excl tally row) row := by
    intro hc hx
    obtain ⟨r', hmem', _, hcond⟩ :=
      (mem_extras_iff rules _ _ row A).mp hx
    rw [keys_nodup_inj hnd hmem' hmem] at hcond
    simp only [extrasCond, Bool.and_eq_true, decide_eq_true_eq] at hcond
    refine hc ⟨hcond.1.1, hcond.1.2, ?_⟩
    have := hcond.2
    omega
  constructor
  · constructor
    · intro heq
      by_contra hc
      rw [postExtrasTally,
        Tally.get_foldl_incr_of_not_mem _ _ _ (hnotext hc), ht1] at heq
      omega
    · rintro ⟨hrow, hiss, hlt⟩
      have hext : A ∈ extras rules (primary rules excl tally row)
          (postPrimaryTally rules excl tally row) row := by
        refine (mem_extras_iff rules _ _ row A).mpr ⟨r, hmem, hnp, ?_⟩
        simp only [extrasCond, Bool.and_eq_true, decide_eq_true_eq]
        exact ⟨⟨hrow, hiss⟩, by omega⟩
      rw [postExtrasTally,
        Tally.get_foldl_incr_of_mem _ _ _ (extras_nodup rules _ _ row hnd)
          hext hsome1, ht1]
  · intro hc
    rw [postExtrasTally,
      Tally.get_foldl_incr_of_not_mem _ _ _ (hnotext hc), ht1]

/-- Witness for C6 at a concrete input: `A` outside the primary set (its
minimum is 0), with a finite max of 2 and tally 0, gains exactly one extra
contribution. -/
theorem C6_extra_contributions_witness :
    (postExtrasTally [("A", ⟨0, some 2⟩)] [] [("A", 0)]
        (Row.mk [("A", true)])).get "A" =
      Tally.get [("A", 0)] "A" + 1 :=
  ((C6_extra_contributions.1 [("A", ⟨0, some 2⟩)] [] [("A", 0)]
        (Row.mk [("A", true)]) "A" ⟨0, some 2⟩ (by decide) (by decide)
        (by decide) (by decide)).1).mpr ⟨by decide, by decide, by decide⟩

/-! ### Missing attributes behave as false -/

theorem any_filter_eq {α : Type} (l : List α) (p q : α → Bool)
    (h : ∀ a ∈ l, q a = false → p a = false) :
    (l.filter q).any p = l.any p := by
  induction l with
  | nil => rfl
  | cons a l ih =>
    have ih' := ih (fun b hb hqb => h b (List.mem_cons_of_mem _ hb) hqb)
    by_cases hq : q a = true
    · simp [List.filter_cons, hq, ih']
    · have hq' : q a = false := Bool.not_eq_true _ ▸ hq
      have hp : p a = false := h a (List.mem_cons_self a l) hq'
      simp [List.filter_cons, hq', hp, ih']

/-- C10: a rule attribute `k` absent from a row's columns is treated as
false rather than failing: the row reads false at `k`; the row cannot be
counted relevant through `k` nor vetoed at the maximum check through `k`
(dropping `k`-keyed rules changes neither test); `k` never enters the
primary or extra contribution sets; and an exclusion-list entry `k` absent
from the row never vetoes (dropping `k` from any exclusion list leaves the
veto test unchanged). The selector itself is a total function, so it
completes on such rows. -/
theorem C10_missing_attr_as_false (row : Row) (k : String)
    (h : lookupA row.attrs k = none) :
    Row.get row k = false ∧
    (∀ rules : Rules,
      isRelevant (rules.filter (fun p => decide (p.1 ≠ k))) row =
        isRelevant rules row) ∧
    (∀ (rules : Rules) (tally : Tally),
      maxVeto (rules.filter (fun p => decide (p.1 ≠ k))) tally row =
        maxVeto rules tally row) ∧
    (∀ (rules : Rules) (excl : ExcludeMap) (tally : Tally),
      k ∉ primary rules excl tally row) ∧
    (∀ (rules : Rules) (prim : List String) (tally : Tally),
      k ∉ extras rules prim tally row) ∧
    (∀ (excl : ExcludeMap) (A : String),
      ((ExcludeMap.get excl A).filter (fun ex => decide (ex ≠ k))).any
          (fun ex => row.get ex) =
        (ExcludeMap.get excl A).any (fun ex => row.get ex)) := by
  have hget : Row.get row k = false := by
    rw [Row.get, h]
    rfl
  refine ⟨hget, ?_, ?_, ?_, ?_, ?_⟩
  · intro rules
    refine any_filter_eq rules _ _ (fun p hp hq => ?_)
    simp only [decide_eq_false_iff_not, not_not] at hq
    rw [hq, hget]
  · intro rules tally
    refine any_filter_eq rules _ _ (fun p hp hq => ?_)
    simp only [decide_eq_false_iff_not, not_not] at hq
    rw [hq]
    simp [maxVetoAttr, hget]
  · intro rules excl tally hc
    obtain ⟨r, _, hcond⟩ := (mem_primary_iff rules excl tally row k).mp hc
    simp only [primaryCond, hget, Bool.and_eq_true] at hcond
    exact Bool.false_ne_true hcond.1.2
  · intro rules prim tally hc
    obtain ⟨r, _, _, hcond⟩ := (mem_extras_iff rules prim tally row k).mp hc
    simp only [extrasCond, hget, Bool.and_eq_true] at hcond
    exact Bool.false_ne_true hcond.1.1
  · intro excl A
    refine any_filter_eq _ _ _ (fun ex hex hq => ?_)
    simp only [decide_eq_false_iff_not, not_not] at hq
    rw [hq, hget]

/-- Witness for C10 at a concrete input: a row without an `"A"` column. -/
theorem C10_missing_attr_as_false_witness :
    Row.get (Row.mk [("B", true)]) "A" = false :=
  (C10_missing_attr_as_false (Row.mk [("B", true)]) "A" (by decide)).1

/-! ### Rule construction performs no validation -/

theorem dictInsert_nodup {acc : Rules} (h : (acc.map Prod.fst).Nodup)
    (k : String) (r : Rule) : ((dictInsert acc k r).map Prod.fst).Nodup := by
  rw [dictInsert]
  by_cases hany : acc.any (fun q => decide (q.1 = k)) = true
  · rw [if_pos hany]
    have hfst : (acc.map (fun q => if q.1 = k then (k, r) else q)).map
        Prod.fst = acc.map Prod.fst := by
      rw [List.map_map]
      refine List.map_congr_left (fun q hq => ?_)
      by_cases hqk : q.1 = k
      · simp [hqk]
      · simp [hqk]
    rw [hfst]
    exact h
  · rw [if_neg hany]
    have hk : k ∉ acc.map Prod.fst := by
      intro hkmem
      obtain ⟨q, hq, hqk⟩ := List.mem_map.mp hkmem
      exact hany (List.any_eq_true.mpr ⟨q, hq, by simp [hqk]⟩)
    rw [List.map_append]
    refine List.Nodup.append h (List.nodup_singleton k) ?_
    intro a ha hb
    simp only [List.map_cons, List.map_nil, List.mem_singleton] at hb
    rw [hb] at ha
    exact hk ha

theorem buildRules_keys_nodup (tags types : List (String × CountVal)) :
    ((buildRules tags types).map Prod.fst).Nodup := by
  have base : ∀ (l : List (String × CountVal)) (acc : Rules),
      (acc.map Prod.fst).Nodup →
      ((l.foldl (fun acc p => dictInsert acc p.1 (mkRule p.2)) acc).map
        Prod.fst).Nodup := by
    intro l
    induction l with
    | nil => exact fun acc h => h
    | cons p l ih =>
      intro acc h
      exact ih _ (dictInsert_nodup h _ _)
  exact base types _ (base tags [] (by simp))

/-- C2 counterexample: a `min 2, max 1` entry in `counts.json` is NOT
rejected at rule construction — `buildRules` returns the contradictory rule
unchanged — and selection runs on it without any error, returning a normal
result (tally capped at the maximum, minimum unmet). -/
theorem C2_counterexample :
    buildRules [("a", CountVal.obj (some 2) (some 1))] [] =
      [("a", ⟨2, some 1⟩)] ∧
    selectRun [(1, ⟨[("a", true)]⟩), (2, ⟨[("a", true)]⟩)]
        (buildRules [("a", CountVal.obj (some 2) (some 1))] []) [] =
      ([1], [("a", 1)], []) :=
  ⟨by decide, by decide⟩

/-- C2 amended: rule construction performs no min/max validation — a rule
whose minimum exceeds its (finite) maximum is constructed as-is — and the
contradiction never surfaces as an error anywhere: selection on such a rule
set completes normally, keeps the attribute's tally at or below the maximum,
and (the minimum being unreachable) scans every row without early
termination. -/
theorem C2_min_gt_max_not_rejected (tags types : List (String × CountVal))
    (excl : ExcludeMap) (A : String) (r : Rule) (m : Nat)
    (hmem : (A, r) ∈ buildRules tags types) (hmax : r.max = some m)
    (hlt : m < r.min) :
    ∀ rows : List (Nat × Row),
      (selectRun rows (buildRules tags types) excl).2.1.get A ≤ m ∧
      (selectRun rows (buildRules tags types) excl).2.2 = [] := by
  intro rows
  have hnd := buildRules_keys_nodup tags types
  have h1 : (selectRun rows (buildRules tags types) excl).2.1.get A ≤ m :=
    selectAux_tally_le_max excl hnd hmem hmax rows [] _
      (by rw [initTally_get]; exact Nat.zero_le _)
  refine ⟨h1, ?_⟩
  by_contra hne
  have hmet := selectAux_remainder_allMet rows [] (initTally _) hne
  simp only [allMet] at hmet
  have hA := List.all_eq_true.mp hmet (A, r) hmem
  simp only [decide_eq_true_eq] at hA
  have h1' : (selectAux (buildRules tags types) excl rows []
      (initTally (buildRules tags types))).2.1.get A ≤ m := h1
  omega

/-- Witness for C2's amended statement at a concrete input. -/
theorem C2_min_gt_max_not_rejected_witness :
    (selectRun [(1, Row.mk [("a", true)]), (2, Row.mk [("a", true)])]
        (buildRules [("a", CountVal.obj (some 2) (some 1))] []) []).2.1.get
      "a" ≤ 1 ∧
    (selectRun [(1, Row.mk [("a", true)]), (2, Row.mk [("a", true)])]
        (buildRules [("a", CountVal.obj (some 2) (some 1))] []) []).2.2 =
      [] :=
  C2_min_gt_max_not_rejected [("a", CountVal.obj (some 2) (some 1))] [] []
    "a" ⟨2, some 1⟩ 1 (by decide) rfl (by decide)
    [(1, Row.mk [("a", true)]), (2, Row.mk [("a", true)])]

/-! ### The returned result is only the ordered list of selected identifiers -/

theorem selectAux_sel_sublist :
    ∀ (rules : Rules) (excl : ExcludeMap) (rows : List (Nat × Row))
      (sel : List Nat) (tally : Tally),
      ∃ s, (selectAux rules excl rows sel tally).1 = sel ++ s ∧
        s.Sublist (rows.map Prod.fst) := by
  intro rules excl rows
  induction rows with
  | nil =>
    intro sel tally
    exact ⟨[], by simp [selectAux], List.Sublist.refl _⟩
  | cons hd rest ih =>
    intro sel tally
    obtain ⟨idx, row⟩ := hd
    by_cases hrel : isRelevant rules row = true
    · by_cases hveto : maxVeto rules tally row = true
      · obtain ⟨s, hs, hsub⟩ := ih sel tally
        rw [selectAux_step_skip rules excl idx row rest sel tally
          (Or.inr (Or.inl hveto))]
        exact ⟨s, hs, List.Sublist.cons idx hsub⟩
      · have hveto' : maxVeto rules tally row = false :=
          Bool.not_eq_true _ ▸ hveto
        by_cases hempty : (primary rules excl tally row).isEmpty = true
        · obtain ⟨s, hs, hsub⟩ := ih sel tally
          rw [selectAux_step_skip rules excl idx row rest sel tally
            (Or.inr (Or.inr hempty))]
          exact ⟨s, hs, List.Sublist.cons idx hsub⟩
        · have hempty' : (primary rules excl tally row).isEmpty = false :=
            Bool.not_eq_true _ ▸ hempty
          rw [selectAux_step_accept rules excl idx row rest sel tally hrel
            hveto' hempty']
          by_cases hmet :
              allMet rules (postExtrasTally rules excl tally row) = true
          · rw [if_pos hmet]
            exact ⟨[idx], rfl, by simp⟩
          · rw [if_neg hmet]
            obtain ⟨s, hs, hsub⟩ :=
              ih (sel ++ [idx]) (postExtrasTally rules excl tally row)
            refine ⟨idx :: s, ?_, List.Sublist.cons₂ idx hsub⟩
            rw [hs, List.append_assoc]
            rfl
    · have hrel' : isRelevant rules row = false := Bool.not_eq_true _ ▸ hrel
      obtain ⟨s, hs, hsub⟩ := ih sel tally
      rw [selectAux_step_skip rules excl idx row rest sel tally
        (Or.inl hrel')]
      exact ⟨s, hs, List.Sublist.cons idx hsub⟩

/-- C1 amended: the selector's returned result is only the ordered list of
selected row identifiers — a subsequence of the input table's identifiers in
table order. The final tally is internal loop state that is not part of the
returned result, and no per-row decision trace is produced at all. -/
theorem C1_result_is_ordered_id_list (df : List (Nat × Row)) (rules : Rules)
    (excl : ExcludeMap) :
    (build_deck_indices df rules excl).Sublist (df.map Prod.fst) := by
  obtain ⟨s, hs, hsub⟩ := selectAux_sel_sublist rules excl df [] (initTally rules)
  rw [build_deck_indices, hs]
  simpa using hsub

/-- C1 counterexample: two inputs whose runs end with different final
tallies yield the very same returned result, so the value returned by
`build_deck_indices` cannot contain the final tally mapping (nor, a
fortiori, is any decision trace returned). -/
theorem C1_counterexample :
    build_deck_indices [(1, ⟨[("A", true), ("B", false)]⟩)]
        [("A", ⟨1, none⟩), ("B", ⟨0, some 5⟩)] [] =
      build_deck_indices [(1, ⟨[("A", true), ("B", true)]⟩)]
        [("A", ⟨1, none⟩), ("B", ⟨0, some 5⟩)] [] ∧
    (selectRun [(1, ⟨[("A", true), ("B", false)]⟩)]
        [("A", ⟨1, none⟩), ("B", ⟨0, some 5⟩)] []).2.1 ≠
      (selectRun [(1, ⟨[("A", true), ("B", true)]⟩)]
        [("A", ⟨1, none⟩), ("B", ⟨0, some 5⟩)] []).2.1 := by
  exact ⟨by decide, by decide⟩
